import Mathlib

/-!
Verification development for the separate-chaining hash map of `src/hash_map.h`.

The C++ class `HashMap` keeps two cooperating structures:
  * `elements_` : a `std::list` of key/value pairs in insertion order
    (the element store), and
  * `table_`    : a `std::vector` of buckets, each bucket a `std::list` of
    iterators (handles) into `elements_`, holding `table_size_` logical slots.

The embedding below mirrors the source field by field.  A C++ list iterator
is modelled by a stable numeric handle (`eid`): every freshly created list
node receives a fresh identifier drawn from the `nextId` counter, and a
bucket stores these identifiers.  Dereferencing an iterator becomes looking
up its identifier in the element store; a dangling iterator dereferences to
`none` (in C++ this would be undefined behaviour, which never occurs in the
states the theorems speak about).
-/

set_option autoImplicit false
set_option linter.unusedSectionVars false
set_option linter.unreachableTactic false
set_option linter.unusedTactic false

/-- Value of the C++ constant `HashMap::EXPANSION_COEFFICIENT`. -/
def EXPANSION_COEFFICIENT : Nat := 2

/-- One node of the C++ `std::list<std::pair<const KeyType, ValueType>>`:
the stored pair together with the stable identity `eid` of the list node,
which models the iterator pointing at it. -/
structure Entry (K V : Type) where
  eid : Nat
  key : K
  val : V
deriving DecidableEq, Repr

/-- State of the C++ class `HashMap<KeyType, ValueType, Hash>`.
`table`, `elements`, `nElements`, `table_size` and `hasher` are the five
data members `table_`, `elements_`, `nElements_`, `table_size_`, `hasher_`;
`nextId` is the supply of fresh node identities used to model iterators. -/
structure HashMap (K V : Type) where
  table : List (List Nat)
  elements : List (Entry K V)
  nElements : Nat
  table_size : Nat
  hasher : K → Nat
  nextId : Nat

/-- Read bucket `j` of a table; out-of-range reads give `[]` (they never
happen in the states the theorems quantify over). -/
def getBucket (t : List (List Nat)) (j : Nat) : List Nat := t.getD j []

/-- Replace bucket `j` of a table (no-op when out of range, which never
happens in the states the theorems quantify over). -/
def setBucket (t : List (List Nat)) (j : Nat) (b : List Nat) : List (List Nat) :=
  t.set j b

namespace HashMap

variable {K V : Type} [DecidableEq K] [Inhabited V]

/-- The slot computation `hasher_(k) % table_size_` appearing throughout the
source. -/
def slotOf (m : HashMap K V) (k : K) : Nat := m.hasher k % m.table_size

/-- Dereference a handle: find the list node with identity `h` in the
element store. -/
def findEntry (m : HashMap K V) (h : Nat) : Option (Entry K V) :=
  m.elements.find? (fun e => e.eid == h)

/-- The C++ expression `iter->first` for the iterator modelled by `h`. -/
def keyOf (m : HashMap K V) (h : Nat) : Option K := (m.findEntry h).map Entry.key

/-- The C++ expression `iter->second` for the iterator modelled by `h`. -/
def valOf (m : HashMap K V) (h : Nat) : Option V := (m.findEntry h).map Entry.val

/-- `size()`: returns `nElements_`. -/
def size (m : HashMap K V) : Nat := m.nElements

/-- `empty()`: returns `nElements_ == 0`. -/
def isEmpty (m : HashMap K V) : Bool := m.nElements == 0

/-- `hash_function()`: returns `hasher_`. -/
def hash_function (m : HashMap K V) : K → Nat := m.hasher

/-- `find(a)`: computes `h = hasher_(a) % table_size_` and scans the bucket
`table_[h]`, returning the first stored iterator whose `->first` equals `a`,
or the end sentinel (`none`) if the scan finds nothing. -/
def find (m : HashMap K V) (a : K) : Option Nat :=
  (getBucket m.table (m.slotOf a)).find? (fun h => decide (m.keyOf h = some a))

/-- `need_to_expand()`: returns `nElements_ > table_size_`. -/
def need_to_expand (m : HashMap K V) : Bool := decide (m.nElements > m.table_size)

/-- The rebuild loop inside `expand()`: walk `elements_` in order and push
each node's iterator into the bucket `hasher_(i->first) % ts` of a fresh
table of `ts` empty buckets. -/
def buildTable {K V : Type} (es : List (Entry K V)) (hasher : K → Nat) (ts : Nat) :
    List (List Nat) :=
  es.foldl
    (fun t e => setBucket t (hasher e.key % ts) (getBucket t (hasher e.key % ts) ++ [e.eid]))
    (List.replicate ts [])

/-- `expand()`: multiplies `table_size_` by `EXPANSION_COEFFICIENT` and
rebuilds `table_` from scratch by rehashing every element. -/
def expand (m : HashMap K V) : HashMap K V :=
  let ts := m.table_size * EXPANSION_COEFFICIENT
  { m with table_size := ts, table := buildTable m.elements m.hasher ts }

/-- `expand_if_necessary()`: expands exactly when `need_to_expand()`. -/
def expand_if_necessary (m : HashMap K V) : HashMap K V :=
  if m.need_to_expand then m.expand else m

/-- The shared core of `insert` and `returning_insert`: compute
`h = hasher_(a.first) % table_size_`, increment `nElements_`, append the
pair to `elements_`, and push the new node's iterator onto `table_[h]`. -/
def pushEntry (m : HashMap K V) (k : K) (v : V) : HashMap K V :=
  let h := m.slotOf k
  { m with
    nElements := m.nElements + 1
    elements := m.elements ++ [⟨m.nextId, k, v⟩]
    table := setBucket m.table h (getBucket m.table h ++ [m.nextId])
    nextId := m.nextId + 1 }

/-- `insert(a)`: returns unchanged when `find(a.first) != end()`; otherwise
appends the pair, registers the handle, and runs `expand_if_necessary()`. -/
def insert (m : HashMap K V) (k : K) (v : V) : HashMap K V :=
  match m.find k with
  | some _ => m
  | none => (m.pushEntry k v).expand_if_necessary

/-- `erase(a)`: scans bucket `hasher_(a) % table_size_` for the first stored
iterator with `->first == a`; if found, erases that node from `elements_`
and that iterator from the bucket and decrements `nElements_`; otherwise
leaves the map unchanged. -/
def erase (m : HashMap K V) (a : K) : HashMap K V :=
  let s := m.slotOf a
  match (getBucket m.table s).find? (fun h => decide (m.keyOf h = some a)) with
  | none => m
  | some h =>
      { m with
        elements := m.elements.eraseP (fun e => e.eid == h)
        table := setBucket m.table s
          ((getBucket m.table s).eraseP (fun x => decide (m.keyOf x = some a)))
        nElements := m.nElements - 1 }

/-- Forward iteration from `begin()` to `end()`: the sequence of key/value
pairs of `elements_` in list order. -/
def entries (m : HashMap K V) : List (K × V) := m.elements.map (fun e => (e.key, e.val))

end HashMap

/-- Result of `at`: either the `std::out_of_range` exception (`KeyNotFound`
in the specification, carrying no data) or the returned value. -/
inductive AtResult (V : Type) where
  | keyNotFound
  | found (v : V)
deriving DecidableEq, Repr

namespace HashMap

variable {K V : Type} [DecidableEq K] [Inhabited V]

/-- `at(i)` (a const member, hence mutation-free by type): runs `find(i)`;
throws when the result is the end sentinel, otherwise returns
`iter->second`.  The `getD default` arm is the dereference of the returned
iterator, which is always valid here since `find` only returns iterators
stored in buckets. -/
def atKey (m : HashMap K V) (i : K) : AtResult V :=
  match m.find i with
  | none => AtResult.keyNotFound
  | some h => AtResult.found ((m.valOf h).getD default)

/-- `returning_insert(a)`: unconditionally appends (the caller has already
checked absence), then either expands and re-finds the key, or returns the
iterator `table_[h].back()` just pushed.  The second component is the
returned iterator. -/
def returning_insert (m : HashMap K V) (k : K) (v : V) : HashMap K V × Option Nat :=
  let s := m.slotOf k
  let m1 := m.pushEntry k v
  if m1.need_to_expand then
    let m2 := m1.expand
    (m2, m2.find k)
  else
    (m1, (getBucket m1.table s).getLast?)

/-- `operator[](i)`: returns the existing value when `find(i)` succeeds,
otherwise inserts a default-constructed value through `returning_insert`
and returns it.  The pair is (resulting map, returned value); the
`getD default` arms dereference the iterators, which are always valid in
the states the theorems quantify over. -/
def indexedAccess (m : HashMap K V) (k : K) : HashMap K V × V :=
  match m.find k with
  | none =>
      let r := m.returning_insert k default
      (r.1, (r.2.bind r.1.valOf).getD default)
  | some h => (m, (m.valOf h).getD default)

/-- The loop body of `clear()`: while `elements_` is nonempty, clear the
whole bucket `hasher_(elements_.back().first) % table_size_` and pop the
back element.  Processing the reversal of `elements_` head-first is exactly
popping from the back. -/
def clearLoop {K V : Type} (hasher : K → Nat) (ts : Nat) :
    List (Entry K V) → List (List Nat) → List (List Nat)
  | [], t => t
  | e :: rest, t => clearLoop hasher ts rest (setBucket t (hasher e.key % ts) [])

/-- `clear()`: runs the bucket-clearing loop (under the pre-clear
`table_size_`), empties `elements_`, and resets `nElements_` to 0 and
`table_size_` to 1.  Note that the length of `table_` is left unchanged. -/
def clear (m : HashMap K V) : HashMap K V :=
  { m with
    table := clearLoop m.hasher m.table_size m.elements.reverse m.table
    elements := []
    nElements := 0
    table_size := 1 }

/-- `operator=(other)` on distinct objects: `clear()`, then `insert` every
element of `other` in iteration order (still under the target's own
`hasher_`), and only afterwards copy `hasher_` from `other`.  The C++
self-assignment guard compares object identity, which has no counterpart on
values; the model is the non-self branch. -/
def assign (m other : HashMap K V) : HashMap K V :=
  let m1 := m.clear
  let m2 := other.elements.foldl (fun acc e => acc.insert e.key e.val) m1
  { m2 with hasher := other.hasher }

end HashMap

/-- The default constructor `HashMap(hasher)`: zero elements,
`table_size_ = 1`, and `table_` a vector of one empty bucket. -/
def mkHashMap {K V : Type} (hasher : K → Nat) : HashMap K V :=
  { table := List.replicate 1 []
    elements := []
    nElements := 0
    table_size := 1
    hasher := hasher
    nextId := 0 }

/-- Fold a sequence of pairs through `insert`, as the range and
initializer-list constructors do. -/
def insertAll {K V : Type} [DecidableEq K] [Inhabited V]
    (m : HashMap K V) (ps : List (K × V)) : HashMap K V :=
  ps.foldl (fun acc p => acc.insert p.1 p.2) m

/-- The range / initializer-list constructor: start from the default
constructor and `insert` each pair in order. -/
def hashMapOfList {K V : Type} [DecidableEq K] [Inhabited V]
    (hasher : K → Nat) (ps : List (K × V)) : HashMap K V :=
  insertAll (mkHashMap hasher) ps

/-- `lookupVal m k` is the value read through the iterator returned by
`find`, i.e. the C++ idiom `find(k)->second` guarded by the end check. -/
def HashMap.lookupVal {K V : Type} [DecidableEq K] [Inhabited V]
    (m : HashMap K V) (k : K) : Option V :=
  (m.find k).bind m.valOf

/-- Well-formedness of a map state: the size bounds on `table_size_`, the
size counter, freshness and distinctness of node identities, key
uniqueness, and the two bucket invariants of the specification (every
stored handle belongs to a live element sitting in its current slot, and
every live element has its handle exactly once in its slot's bucket). -/
def WF {K V : Type} [DecidableEq K] [Inhabited V] (m : HashMap K V) : Prop :=
  1 ≤ m.table_size ∧
  m.table_size ≤ m.table.length ∧
  m.nElements = m.elements.length ∧
  (m.elements.map Entry.eid).Nodup ∧
  (∀ e ∈ m.elements, e.eid < m.nextId) ∧
  (m.elements.map Entry.key).Nodup ∧
  (∀ j, j < m.table.length → ∀ h ∈ getBucket m.table j,
    ∃ e ∈ m.elements, e.eid = h ∧ m.slotOf e.key = j) ∧
  (∀ e ∈ m.elements, (getBucket m.table (m.slotOf e.key)).count e.eid = 1)

instance {K V : Type} [DecidableEq K] [Inhabited V] (m : HashMap K V) :
    Decidable (WF m) := by
  unfold WF
  infer_instance

/-- The two size bounds alone (they survive even the hasher-changing
copy-assignment, unlike full well-formedness). -/
def SafeState {K V : Type} (m : HashMap K V) : Prop :=
  1 ≤ m.table_size ∧ m.table_size ≤ m.table.length

/-- A public operation of the container, for quantifying over operation
sequences. -/
inductive Op (K V : Type) where
  | ins (k : K) (v : V)
  | del (k : K)
  | idx (k : K)

/-- Apply one public operation. -/
def HashMap.applyOp {K V : Type} [DecidableEq K] [Inhabited V]
    (m : HashMap K V) : Op K V → HashMap K V
  | Op.ins k v => m.insert k v
  | Op.del k => m.erase k
  | Op.idx k => (m.indexedAccess k).1

/-- Run a sequence of public operations from a fresh map. -/
def runOps {K V : Type} [DecidableEq K] [Inhabited V]
    (hasher : K → Nat) (ops : List (Op K V)) : HashMap K V :=
  ops.foldl HashMap.applyOp (mkHashMap hasher)

/-- Reference semantics of one operation on a plain association list, a
transcription of the specification's words: `insert` is first-wins and
appends, `erase` removes the at-most-one matching pair, indexed access
auto-vivifies with a default value. -/
def specApplyOp {K V : Type} [DecidableEq K] [Inhabited V]
    (l : List (K × V)) : Op K V → List (K × V)
  | Op.ins k v => if l.any (fun q => q.1 == k) then l else l ++ [(k, v)]
  | Op.del k => l.eraseP (fun q => q.1 == k)
  | Op.idx k => if l.any (fun q => q.1 == k) then l else l ++ [(k, default)]

/-- Reference run of a sequence of operations from the empty association
list. -/
def specRunOps {K V : Type} [DecidableEq K] [Inhabited V]
    (ops : List (Op K V)) : List (K × V) :=
  ops.foldl specApplyOp []

/-- Reference semantics of a pure insertion sequence, a transcription of
the specification's first-inserted-value-wins policy. -/
def specFirstWins {K V : Type} [DecidableEq K]
    (ps : List (K × V)) : List (K × V) :=
  ps.foldl (fun l p => if l.any (fun q => q.1 == p.1) then l else l ++ [p]) []

/-- States reachable from a fresh map through the public interface
(construction, `insert`, `erase`, `operator[]`, `clear`, `operator=`). -/
inductive Reachable {K V : Type} [DecidableEq K] [Inhabited V] : HashMap K V → Prop where
  | base (hasher : K → Nat) : Reachable (mkHashMap hasher)
  | ins {m : HashMap K V} (k : K) (v : V) : Reachable m → Reachable (m.insert k v)
  | del {m : HashMap K V} (k : K) : Reachable m → Reachable (m.erase k)
  | idx {m : HashMap K V} (k : K) : Reachable m → Reachable ((m.indexedAccess k).1)
  | clr {m : HashMap K V} : Reachable m → Reachable m.clear
  | asg {m other : HashMap K V} : Reachable m → Reachable other → Reachable (m.assign other)

/-- The identity hash on natural keys, used for concrete instances. -/
def natId : Nat → Nat := fun n => n

/-- A constant hash functor sending every key to 0. -/
def hashZero : Nat → Nat := fun _ => 0

/-- A constant hash functor sending every key to 1. -/
def hashOne : Nat → Nat := fun _ => 1

/-- Concrete instance of `operator=` between maps configured with different
hash functors: the target (hash functor `hashZero`) is assigned from a
source holding keys 0 and 1 under the identity hash. -/
def asgBroken : HashMap Nat Nat :=
  HashMap.assign (mkHashMap hashZero) (hashMapOfList natId [(0, 10), (1, 11)])

/-- Concrete instance of `clear()` run right after a hash-functor-changing
`operator=`: the target (hash functor `hashZero`) is assigned from a source
whose hash functor is `hashOne`, then cleared. -/
def clearStale : HashMap Nat Nat :=
  (HashMap.assign (mkHashMap hashZero) (hashMapOfList hashOne [(0, 10), (1, 11)])).clear

/-! ### Basic bucket lemmas -/

theorem length_setBucket (t : List (List Nat)) (j : Nat) (b : List Nat) :
    (setBucket t j b).length = t.length := List.length_set t j b

theorem getBucket_set_self {t : List (List Nat)} {j : Nat} (b : List Nat)
    (h : j < t.length) : getBucket (setBucket t j b) j = b := by
  simp [getBucket, setBucket, List.getD_eq_getElem?_getD, List.getElem?_set_eq_of_lt b h]

theorem getBucket_set_ne {t : List (List Nat)} {i j : Nat} (b : List Nat)
    (h : i ≠ j) : getBucket (setBucket t i b) j = getBucket t j := by
  simp [getBucket, setBucket, List.getD_eq_getElem?_getD, List.getElem?_set_ne h]

theorem getBucket_of_length_le {t : List (List Nat)} {j : Nat}
    (h : t.length ≤ j) : getBucket t j = [] := by
  simp [getBucket, List.getD_eq_getElem?_getD, List.getElem?_eq_none h]

theorem getBucket_replicate (n j : Nat) : getBucket (List.replicate n []) j = [] := by
  by_cases h : j < n
  · simp [getBucket, List.getD_eq_getElem?_getD, List.getElem?_replicate, h]
  · exact getBucket_of_length_le (by simpa [Nat.not_lt] using h)

/-! ### A first-match lemma for scans -/

theorem find?_eq_some_of_unique {α : Type} (l : List α) (p : α → Bool) (x : α)
    (hx : x ∈ l) (hpx : p x = true) (huniq : ∀ y ∈ l, p y = true → y = x) :
    l.find? p = some x := by
  induction l with
  | nil => cases hx
  | cons a l ih =>
    by_cases hpa : p a = true
    · rw [List.find?_cons_of_pos l hpa]
      exact congrArg some (huniq a (List.mem_cons_self a l) hpa)
    · rw [List.find?_cons_of_neg l (by simpa using hpa)]
      apply ih
      · rcases List.mem_cons.mp hx with h | h
        · exact absurd (h ▸ hpx) hpa
        · exact h
      · exact fun y hy hpy => huniq y (List.mem_cons_of_mem _ hy) hpy

/-! ### Dereferencing handles -/

namespace HashMap

variable {K V : Type} [DecidableEq K] [Inhabited V]

theorem findEntry_of_mem {m : HashMap K V}
    (hnd : (m.elements.map Entry.eid).Nodup) {e : Entry K V} (he : e ∈ m.elements) :
    m.findEntry e.eid = some e := by
  unfold findEntry
  apply find?_eq_some_of_unique _ _ e he (by simp)
  intro y hy hpy
  exact List.inj_on_of_nodup_map hnd hy he (by simpa using hpy)

theorem keyOf_of_mem {m : HashMap K V}
    (hnd : (m.elements.map Entry.eid).Nodup) {e : Entry K V} (he : e ∈ m.elements) :
    m.keyOf e.eid = some e.key := by
  simp [keyOf, findEntry_of_mem hnd he]

theorem valOf_of_mem {m : HashMap K V}
    (hnd : (m.elements.map Entry.eid).Nodup) {e : Entry K V} (he : e ∈ m.elements) :
    m.valOf e.eid = some e.val := by
  simp [valOf, findEntry_of_mem hnd he]

theorem keyOf_mem_of_eq_some {m : HashMap K V} {h : Nat} {k : K}
    (hk : m.keyOf h = some k) : ∃ e ∈ m.elements, e.eid = h ∧ e.key = k := by
  unfold keyOf findEntry at hk
  rcases ho : m.elements.find? (fun e => e.eid == h) with _ | e
  · rw [ho] at hk; cases hk
  · rw [ho] at hk
    refine ⟨e, List.mem_of_find?_eq_some ho, by simpa using List.find?_some ho, ?_⟩
    simpa using hk

end HashMap

/-! ### Projections out of well-formedness -/

theorem WF.ts_pos {K V : Type} [DecidableEq K] [Inhabited V] {m : HashMap K V}
    (hwf : WF m) : 1 ≤ m.table_size := hwf.1

theorem WF.ts_le {K V : Type} [DecidableEq K] [Inhabited V] {m : HashMap K V}
    (hwf : WF m) : m.table_size ≤ m.table.length := hwf.2.1

theorem WF.count_eq {K V : Type} [DecidableEq K] [Inhabited V] {m : HashMap K V}
    (hwf : WF m) : m.nElements = m.elements.length := hwf.2.2.1

theorem WF.ids_nodup {K V : Type} [DecidableEq K] [Inhabited V] {m : HashMap K V}
    (hwf : WF m) : (m.elements.map Entry.eid).Nodup := hwf.2.2.2.1

theorem WF.ids_lt {K V : Type} [DecidableEq K] [Inhabited V] {m : HashMap K V}
    (hwf : WF m) : ∀ e ∈ m.elements, e.eid < m.nextId := hwf.2.2.2.2.1

theorem WF.keys_nodup {K V : Type} [DecidableEq K] [Inhabited V] {m : HashMap K V}
    (hwf : WF m) : (m.elements.map Entry.key).Nodup := hwf.2.2.2.2.2.1

theorem WF.bucket_sound {K V : Type} [DecidableEq K] [Inhabited V] {m : HashMap K V}
    (hwf : WF m) : ∀ j, j < m.table.length → ∀ h ∈ getBucket m.table j,
      ∃ e ∈ m.elements, e.eid = h ∧ m.slotOf e.key = j := hwf.2.2.2.2.2.2.1

theorem WF.elem_count {K V : Type} [DecidableEq K] [Inhabited V] {m : HashMap K V}
    (hwf : WF m) : ∀ e ∈ m.elements,
      (getBucket m.table (m.slotOf e.key)).count e.eid = 1 := hwf.2.2.2.2.2.2.2

theorem WF.slot_lt {K V : Type} [DecidableEq K] [Inhabited V] {m : HashMap K V}
    (hwf : WF m) (k : K) : m.slotOf k < m.table.length :=
  lt_of_lt_of_le (Nat.mod_lt _ (lt_of_lt_of_le Nat.zero_lt_one hwf.ts_pos)) hwf.ts_le

/-! ### The behaviour of find on well-formed states -/

namespace HashMap

variable {K V : Type} [DecidableEq K] [Inhabited V]

theorem find_eq_some_of_mem {m : HashMap K V} (hwf : WF m)
    {e : Entry K V} (he : e ∈ m.elements) : m.find e.key = some e.eid := by
  unfold find
  apply find?_eq_some_of_unique _ _ e.eid
  · have hc := hwf.elem_count e he
    exact List.count_pos_iff.mp (by omega)
  · simp [keyOf_of_mem hwf.ids_nodup he]
  · intro y hy hpy
    obtain ⟨e', he', heid, _⟩ :=
      hwf.bucket_sound _ (hwf.slot_lt e.key) y hy
    have hky : m.keyOf y = some e.key := of_decide_eq_true hpy
    have hky' : m.keyOf y = some e'.key := heid ▸ keyOf_of_mem hwf.ids_nodup he'
    have hkk : e'.key = e.key := by
      rw [hky] at hky'; exact (Option.some.inj hky').symm
    have : e' = e := List.inj_on_of_nodup_map hwf.keys_nodup he' he hkk
    rw [← heid, this]

theorem find_eq_none_of_not_mem {m : HashMap K V} (hwf : WF m) {k : K}
    (hab : ∀ e ∈ m.elements, e.key ≠ k) : m.find k = none := by
  unfold find
  apply List.find?_eq_none.mpr
  intro h hh
  obtain ⟨e', he', heid, _⟩ := hwf.bucket_sound _ (hwf.slot_lt k) h hh
  have : m.keyOf h = some e'.key := heid ▸ keyOf_of_mem hwf.ids_nodup he'
  simp [this, hab e' he']

theorem find_eq_none_iff {m : HashMap K V} (hwf : WF m) (k : K) :
    m.find k = none ↔ ∀ e ∈ m.elements, e.key ≠ k := by
  constructor
  · intro hn e he hk
    have := find_eq_some_of_mem hwf he
    rw [hk, hn] at this
    cases this
  · exact find_eq_none_of_not_mem hwf

theorem find_eq_some_iff {m : HashMap K V} (hwf : WF m) (k : K) (h : Nat) :
    m.find k = some h ↔ ∃ e ∈ m.elements, e.key = k ∧ e.eid = h := by
  constructor
  · intro hf
    have hmem := List.mem_of_find?_eq_some hf
    have hp := List.find?_some hf
    obtain ⟨e, he, heid, hkey⟩ := keyOf_mem_of_eq_some (of_decide_eq_true hp)
    exact ⟨e, he, hkey, heid⟩
  · rintro ⟨e, he, rfl, rfl⟩
    exact find_eq_some_of_mem hwf he

theorem find_isSome_iff {m : HashMap K V} (hwf : WF m) (k : K) :
    (m.find k).isSome = true ↔ ∃ e ∈ m.elements, e.key = k := by
  rcases hf : m.find k with _ | h
  · simp only [Option.isSome_none, Bool.false_eq_true, false_iff]
    rw [find_eq_none_iff hwf] at hf
    rintro ⟨e, he, rfl⟩
    exact hf e he rfl
  · simp only [Option.isSome_some, true_iff]
    obtain ⟨e, he, hk, _⟩ := (find_eq_some_iff hwf k h).mp hf
    exact ⟨e, he, hk⟩

theorem lookupVal_of_mem {m : HashMap K V} (hwf : WF m)
    {e : Entry K V} (he : e ∈ m.elements) : m.lookupVal e.key = some e.val := by
  simp [HashMap.lookupVal, find_eq_some_of_mem hwf he, valOf_of_mem hwf.ids_nodup he]

theorem atKey_of_mem {m : HashMap K V} (hwf : WF m)
    {e : Entry K V} (he : e ∈ m.elements) : m.atKey e.key = AtResult.found e.val := by
  simp [atKey, find_eq_some_of_mem hwf he, valOf_of_mem hwf.ids_nodup he]

theorem atKey_of_absent {m : HashMap K V} (hwf : WF m) {k : K}
    (hab : ∀ e ∈ m.elements, e.key ≠ k) : m.atKey k = AtResult.keyNotFound := by
  simp [atKey, find_eq_none_of_not_mem hwf hab]

end HashMap

/-! ### The rebuild loop of expand -/

namespace HashMap

variable {K V : Type} [DecidableEq K] [Inhabited V]

theorem length_buildTable_fold {K V : Type} (hasher : K → Nat) (ts : Nat)
    (es : List (Entry K V)) (t : List (List Nat)) :
    (es.foldl
      (fun t e => setBucket t (hasher e.key % ts) (getBucket t (hasher e.key % ts) ++ [e.eid]))
      t).length = t.length := by
  induction es generalizing t with
  | nil => rfl
  | cons e rest ih => rw [List.foldl_cons, ih, length_setBucket]

theorem length_buildTable {K V : Type} (es : List (Entry K V)) (hasher : K → Nat) (ts : Nat) :
    (buildTable es hasher ts).length = ts := by
  unfold buildTable
  rw [length_buildTable_fold, List.length_replicate]

theorem getBucket_buildTable_fold {K V : Type} (hasher : K → Nat) (ts : Nat) (hts : 0 < ts)
    (es : List (Entry K V)) (t : List (List Nat)) (hlen : ts ≤ t.length) (j : Nat) :
    getBucket (es.foldl
      (fun t e => setBucket t (hasher e.key % ts) (getBucket t (hasher e.key % ts) ++ [e.eid]))
      t) j
      = getBucket t j ++ (es.filter (fun e => hasher e.key % ts == j)).map Entry.eid := by
  induction es generalizing t with
  | nil => simp
  | cons e rest ih =>
    rw [List.foldl_cons, ih _ (by rw [length_setBucket]; exact hlen)]
    by_cases hj : hasher e.key % ts = j
    · rw [hj, getBucket_set_self _ (lt_of_lt_of_le (hj ▸ Nat.mod_lt _ hts) hlen)]
      simp [List.filter_cons, hj]
    · rw [getBucket_set_ne _ hj]
      simp [List.filter_cons, hj]

theorem getBucket_buildTable {K V : Type} (es : List (Entry K V)) (hasher : K → Nat)
    (ts : Nat) (hts : 0 < ts) (j : Nat) :
    getBucket (buildTable es hasher ts) j
      = (es.filter (fun e => hasher e.key % ts == j)).map Entry.eid := by
  unfold buildTable
  rw [getBucket_buildTable_fold hasher ts hts es _ (le_of_eq (List.length_replicate ts []).symm) j,
    getBucket_replicate]
  rfl

/-! ### expand -/

theorem elements_expand (m : HashMap K V) : m.expand.elements = m.elements := rfl

theorem table_size_expand (m : HashMap K V) :
    m.expand.table_size = m.table_size * EXPANSION_COEFFICIENT := rfl

theorem hasher_expand (m : HashMap K V) : m.expand.hasher = m.hasher := rfl

theorem nElements_expand (m : HashMap K V) : m.expand.nElements = m.nElements := rfl

theorem nextId_expand (m : HashMap K V) : m.expand.nextId = m.nextId := rfl

theorem table_expand (m : HashMap K V) :
    m.expand.table = buildTable m.elements m.hasher (m.table_size * EXPANSION_COEFFICIENT) := rfl

theorem wf_expand {m : HashMap K V} (hwf : WF m) : WF m.expand := by
  have hts : 0 < m.table_size * EXPANSION_COEFFICIENT := by
    have := hwf.ts_pos
    simp only [EXPANSION_COEFFICIENT]
    omega
  refine ⟨hts, le_of_eq (length_buildTable _ _ _).symm, hwf.count_eq, hwf.ids_nodup,
    hwf.ids_lt, hwf.keys_nodup, ?_, ?_⟩
  · intro j hj h hh
    rw [table_expand, getBucket_buildTable _ _ _ hts j] at hh
    obtain ⟨e, hef, heid⟩ := List.exists_of_mem_map hh
    obtain ⟨he, hp⟩ := List.mem_filter.mp hef
    exact ⟨e, he, heid, by simpa [slotOf] using hp⟩
  · intro e he
    have hslot : m.expand.slotOf e.key
        = m.hasher e.key % (m.table_size * EXPANSION_COEFFICIENT) := rfl
    rw [hslot, table_expand, getBucket_buildTable _ _ _ hts]
    have hnd : ((m.elements.filter
        (fun e' => m.hasher e'.key % (m.table_size * EXPANSION_COEFFICIENT)
          == m.hasher e.key % (m.table_size * EXPANSION_COEFFICIENT))).map Entry.eid).Nodup :=
      List.Nodup.sublist (List.Sublist.map _ (List.filter_sublist _)) hwf.ids_nodup
    apply List.count_eq_one_of_mem hnd
    exact List.mem_map_of_mem _ (List.mem_filter.mpr ⟨he, by simp⟩)

/-! ### pushEntry -/

theorem elements_pushEntry (m : HashMap K V) (k : K) (v : V) :
    (m.pushEntry k v).elements = m.elements ++ [Entry.mk m.nextId k v] := rfl

theorem table_pushEntry (m : HashMap K V) (k : K) (v : V) :
    (m.pushEntry k v).table
      = setBucket m.table (m.slotOf k) (getBucket m.table (m.slotOf k) ++ [m.nextId]) := rfl

theorem entries_pushEntry (m : HashMap K V) (k : K) (v : V) :
    (m.pushEntry k v).entries = m.entries ++ [(k, v)] := by
  simp [entries, pushEntry]

theorem wf_pushEntry {m : HashMap K V} (hwf : WF m) {k : K} (v : V)
    (hab : ∀ e ∈ m.elements, e.key ≠ k) : WF (m.pushEntry k v) := by
  have hslot : ∀ k' : K, (m.pushEntry k v).slotOf k' = m.slotOf k' := fun _ => rfl
  have hs_lt : m.slotOf k < m.table.length := hwf.slot_lt k
  have hfresh : m.nextId ∉ getBucket m.table (m.slotOf k) := by
    intro hmem
    obtain ⟨e, he, heid, _⟩ := hwf.bucket_sound _ hs_lt _ hmem
    exact absurd (heid ▸ hwf.ids_lt e he) (lt_irrefl _)
  refine ⟨hwf.ts_pos, ?_, ?_, ?_, ?_, ?_, ?_, ?_⟩
  · rw [show (m.pushEntry k v).table_size = m.table_size from rfl, table_pushEntry,
      length_setBucket]
    exact hwf.ts_le
  · rw [show (m.pushEntry k v).nElements = m.nElements + 1 from rfl, elements_pushEntry,
      List.length_append, hwf.count_eq]
    rfl
  · rw [elements_pushEntry, List.map_append, List.nodup_append]
    refine ⟨hwf.ids_nodup, List.nodup_singleton _, ?_⟩
    intro x hx hx'
    simp only [List.map_cons, List.map_nil, List.mem_singleton] at hx'
    obtain ⟨e, he, heid⟩ := List.exists_of_mem_map hx
    subst hx'
    exact absurd (heid ▸ hwf.ids_lt e he) (lt_irrefl _)
  · intro e he
    rw [elements_pushEntry] at he
    rw [show (m.pushEntry k v).nextId = m.nextId + 1 from rfl]
    rcases List.mem_append.mp he with h | h
    · exact Nat.lt_succ_of_lt (hwf.ids_lt e h)
    · simp only [List.mem_singleton] at h
      subst h
      exact Nat.lt_succ_self _
  · rw [elements_pushEntry, List.map_append, List.nodup_append]
    refine ⟨hwf.keys_nodup, List.nodup_singleton _, ?_⟩
    intro x hx hx'
    simp only [List.map_cons, List.map_nil, List.mem_singleton] at hx'
    obtain ⟨e, he, hkey⟩ := List.exists_of_mem_map hx
    subst hx'
    exact hab e he hkey
  · intro j hj h hh
    rw [table_pushEntry, length_setBucket] at hj
    rw [table_pushEntry] at hh
    by_cases hjs : j = m.slotOf k
    · subst hjs
      rw [getBucket_set_self _ hs_lt] at hh
      rcases List.mem_append.mp hh with h' | h'
      · obtain ⟨e, he, heid, hsl⟩ := hwf.bucket_sound _ hj h h'
        exact ⟨e, by rw [elements_pushEntry]; exact List.mem_append_left _ he, heid,
          (hslot e.key).trans hsl⟩
      · simp only [List.mem_singleton] at h'
        subst h'
        refine ⟨Entry.mk m.nextId k v, ?_, rfl, hslot k⟩
        rw [elements_pushEntry]
        exact List.mem_append_right _ (List.mem_singleton_self _)
    · rw [getBucket_set_ne _ (fun hc => hjs hc.symm)] at hh
      obtain ⟨e, he, heid, hsl⟩ := hwf.bucket_sound _ hj h hh
      exact ⟨e, by rw [elements_pushEntry]; exact List.mem_append_left _ he, heid,
        (hslot e.key).trans hsl⟩
  · intro e he
    rw [elements_pushEntry] at he
    rw [table_pushEntry, hslot]
    rcases List.mem_append.mp he with h' | h'
    · by_cases hjs : m.slotOf e.key = m.slotOf k
      · rw [hjs, getBucket_set_self _ hs_lt, List.count_append]
        have h1 : (getBucket m.table (m.slotOf k)).count e.eid = 1 := hjs ▸ hwf.elem_count e h'
        have h2 : ([m.nextId].count e.eid) = 0 := by
          apply List.count_eq_zero.mpr
          simp only [List.mem_singleton]
          intro hc
          exact absurd (hc ▸ hwf.ids_lt e h') (lt_irrefl _)
        rw [h1, h2]
      · rw [getBucket_set_ne _ (fun hc => hjs hc.symm)]
        exact hwf.elem_count e h'
    · simp only [List.mem_singleton] at h'
      subst h'
      show (getBucket (setBucket m.table (m.slotOf k)
        (getBucket m.table (m.slotOf k) ++ [m.nextId])) (m.slotOf k)).count m.nextId = 1
      rw [getBucket_set_self _ hs_lt, List.count_append]
      have h1 : (getBucket m.table (m.slotOf k)).count m.nextId = 0 :=
        List.count_eq_zero.mpr hfresh
      have h2 : ([m.nextId].count m.nextId) = 1 := by simp
      rw [h1, h2]

/-! ### expand_if_necessary and insert -/

theorem elements_expand_if_necessary (m : HashMap K V) :
    m.expand_if_necessary.elements = m.elements := by
  unfold expand_if_necessary
  split <;> rfl

theorem hasher_expand_if_necessary (m : HashMap K V) :
    m.expand_if_necessary.hasher = m.hasher := by
  unfold expand_if_necessary
  split <;> rfl

theorem nElements_expand_if_necessary (m : HashMap K V) :
    m.expand_if_necessary.nElements = m.nElements := by
  unfold expand_if_necessary
  split <;> rfl

theorem wf_expand_if_necessary {m : HashMap K V} (hwf : WF m) : WF m.expand_if_necessary := by
  unfold expand_if_necessary
  split
  · exact wf_expand hwf
  · exact hwf

theorem insert_of_found {m : HashMap K V} {k : K} {h0 : Nat}
    (hf : m.find k = some h0) (v : V) : m.insert k v = m := by
  unfold insert
  rw [hf]

theorem insert_of_absent {m : HashMap K V} {k : K} (hf : m.find k = none) (v : V) :
    m.insert k v = (m.pushEntry k v).expand_if_necessary := by
  unfold insert
  rw [hf]

theorem elements_insert_of_absent {m : HashMap K V} {k : K} (hf : m.find k = none) (v : V) :
    (m.insert k v).elements = m.elements ++ [Entry.mk m.nextId k v] := by
  rw [insert_of_absent hf, elements_expand_if_necessary, elements_pushEntry]

theorem wf_insert {m : HashMap K V} (hwf : WF m) (k : K) (v : V) : WF (m.insert k v) := by
  rcases hf : m.find k with _ | h0
  · rw [insert_of_absent hf]
    exact wf_expand_if_necessary (wf_pushEntry hwf v ((find_eq_none_iff hwf k).mp hf))
  · rw [insert_of_found hf]
    exact hwf

theorem hasher_insert (m : HashMap K V) (k : K) (v : V) :
    (m.insert k v).hasher = m.hasher := by
  unfold insert
  split
  · rfl
  · rw [hasher_expand_if_necessary]
    rfl

theorem mem_elements_insert {m : HashMap K V} {e : Entry K V}
    (he : e ∈ m.elements) (k : K) (v : V) : e ∈ (m.insert k v).elements := by
  rcases hf : m.find k with _ | h0
  · rw [elements_insert_of_absent hf]
    exact List.mem_append_left _ he
  · rw [insert_of_found hf]
    exact he

theorem entries_insert {m : HashMap K V} (hwf : WF m) (k : K) (v : V) :
    (m.insert k v).entries
      = if m.entries.any (fun q => q.1 == k) then m.entries else m.entries ++ [(k, v)] := by
  have hiff : m.entries.any (fun q => q.1 == k) = true ↔ ∃ e ∈ m.elements, e.key = k := by
    simp [entries, List.any_eq_true]
  rcases hf : m.find k with _ | h0
  · rw [if_neg, insert_of_absent hf]
    · show (((m.pushEntry k v).expand_if_necessary).entries) = m.entries ++ [(k, v)]
      unfold entries
      rw [elements_expand_if_necessary, elements_pushEntry, List.map_append]
      rfl
    · intro hc
      obtain ⟨e, he, hk⟩ := hiff.mp hc
      exact ((find_eq_none_iff hwf k).mp hf) e he hk
  · rw [insert_of_found hf, if_pos]
    obtain ⟨e, he, hk, _⟩ := (find_eq_some_iff hwf k h0).mp hf
    exact hiff.mpr ⟨e, he, hk⟩

end HashMap

/-! ### Erasing the first match -/

theorem eraseP_eq_erase_of_find? {α : Type} [DecidableEq α] {l : List α} {p : α → Bool} {x : α}
    (hf : l.find? p = some x) : l.eraseP p = l.erase x := by
  induction l with
  | nil => cases hf
  | cons a l ih =>
    by_cases hpa : p a = true
    · rw [List.find?_cons_of_pos l hpa] at hf
      obtain rfl := Option.some.inj hf
      rw [List.eraseP_cons_of_pos hpa, List.erase_cons_head]
    · rw [List.find?_cons_of_neg l (by simpa using hpa)] at hf
      have hax : a ≠ x := fun hc => hpa (hc ▸ List.find?_some hf)
      rw [List.eraseP_cons_of_neg (by simpa using hpa), List.erase_cons_tail (by simpa using hax),
        ih hf]

/-! ### erase -/

namespace HashMap

variable {K V : Type} [DecidableEq K] [Inhabited V]

theorem erase_scan_eq_find (m : HashMap K V) (a : K) :
    (getBucket m.table (m.slotOf a)).find? (fun h => decide (m.keyOf h = some a))
      = m.find a := rfl

theorem erase_of_absent {m : HashMap K V} {a : K} (hf : m.find a = none) : m.erase a = m := by
  simp only [erase]
  rw [erase_scan_eq_find, hf]

theorem erase_of_found {m : HashMap K V} {a : K} {h : Nat} (hf : m.find a = some h) :
    m.erase a = { m with
      elements := m.elements.eraseP (fun e => e.eid == h)
      table := setBucket m.table (m.slotOf a)
        ((getBucket m.table (m.slotOf a)).eraseP (fun x => decide (m.keyOf x = some a)))
      nElements := m.nElements - 1 } := by
  simp only [erase]
  rw [erase_scan_eq_find, hf]

/-- Decomposition of a successful erase: the element store splits around the
unique entry with the sought key, and the erased state drops exactly that
entry from the store and exactly its handle from its bucket. -/
theorem erase_decomp {m : HashMap K V} (hwf : WF m) {a : K} {h : Nat}
    (hf : m.find a = some h) :
    ∃ (e : Entry K V) (l1 l2 : List (Entry K V)),
      m.elements = l1 ++ e :: l2 ∧ e.key = a ∧ e.eid = h ∧
      (∀ x ∈ l1, x.key ≠ a) ∧ (∀ x ∈ l2, x.key ≠ a) ∧
      (m.erase a).elements = l1 ++ l2 ∧
      (m.erase a).table = setBucket m.table (m.slotOf a)
        ((getBucket m.table (m.slotOf a)).erase h) ∧
      (m.erase a).nElements = m.nElements - 1 ∧
      (m.erase a).table_size = m.table_size ∧
      (m.erase a).hasher = m.hasher ∧
      (m.erase a).nextId = m.nextId := by
  obtain ⟨e, he, hkey, heid⟩ := (find_eq_some_iff hwf a h).mp hf
  have hpe : (fun x : Entry K V => x.eid == h) e = true := by simpa using heid
  obtain ⟨e', l1, l2, hl1, hpe', hsplit, herase⟩ :=
    @List.exists_of_eraseP (Entry K V) (fun x => x.eid == h) m.elements e he hpe
  have he'_eid : e'.eid = h := by simpa using hpe'
  have he'_mem : e' ∈ m.elements := by rw [hsplit]; exact List.mem_append_right _ (List.mem_cons_self _ _)
  have hee' : e = e' :=
    (List.inj_on_of_nodup_map hwf.ids_nodup he'_mem he (he'_eid.trans heid.symm)).symm
  subst hee'
  have hknodup := hwf.keys_nodup
  rw [hsplit, List.map_append, List.map_cons] at hknodup
  rw [List.nodup_append] at hknodup
  obtain ⟨hnd1, hnd2, hdisj⟩ := hknodup
  have hl1k : ∀ x ∈ l1, x.key ≠ a := by
    intro x hx hc
    exact hdisj (List.mem_map_of_mem _ hx) (by rw [List.mem_cons]; left; rw [hc, hkey])
  have hl2k : ∀ x ∈ l2, x.key ≠ a := by
    rw [List.nodup_cons] at hnd2
    intro x hx hc
    exact hnd2.1 (by rw [hkey, ← hc]; exact List.mem_map_of_mem _ hx)
  have hber : (getBucket m.table (m.slotOf a)).eraseP (fun x => decide (m.keyOf x = some a))
      = (getBucket m.table (m.slotOf a)).erase h :=
    eraseP_eq_erase_of_find? (erase_scan_eq_find m a ▸ hf)
  refine ⟨e, l1, l2, hsplit, hkey, heid, hl1k, hl2k, ?_, ?_, ?_, ?_, ?_, ?_⟩
  · rw [erase_of_found hf]
    exact herase
  · rw [erase_of_found hf]
    show setBucket m.table (m.slotOf a) _ = _
    rw [hber]
  · rw [erase_of_found hf]
  · rw [erase_of_found hf]
  · rw [erase_of_found hf]
  · rw [erase_of_found hf]

theorem wf_erase {m : HashMap K V} (hwf : WF m) (a : K) : WF (m.erase a) := by
  rcases hf : m.find a with _ | h
  · rw [erase_of_absent hf]
    exact hwf
  · obtain ⟨e, l1, l2, hsplit, hkey, heid, hl1k, hl2k, hels, htab, hn, hts, hhash, hnid⟩ :=
      erase_decomp hwf hf
    have hmem_e : e ∈ m.elements := by
      rw [hsplit]; exact List.mem_append_right _ (List.mem_cons_self _ _)
    have hsub : List.Sublist (l1 ++ l2) m.elements := by
      rw [hsplit]
      exact List.Sublist.append (List.Sublist.refl l1) (List.sublist_cons_self e l2)
    have hslot' : ∀ k' : K, (m.erase a).slotOf k' = m.slotOf k' := by
      intro k'
      unfold slotOf
      rw [hts, hhash]
    have hslot_e : m.slotOf e.key = m.slotOf a := by rw [hkey]
    have hcount_h : (getBucket m.table (m.slotOf a)).count h = 1 := by
      have := hwf.elem_count e hmem_e
      rw [hslot_e, heid] at this
      exact this
    have hnotmem_h : h ∉ (getBucket m.table (m.slotOf a)).erase h := by
      intro hcon
      have hpos := List.count_pos_iff.mpr hcon
      rw [List.count_erase_self, hcount_h] at hpos
      omega
    have hmem_ne : ∀ x ∈ l1 ++ l2, x ≠ e := by
      intro x hx hc
      subst hc
      have hnd : (m.elements.map Entry.eid).Nodup := hwf.ids_nodup
      rw [hsplit, List.map_append, List.map_cons, List.nodup_append] at hnd
      rcases List.mem_append.mp hx with h1 | h2
      · exact hnd.2.2 (List.mem_map_of_mem _ h1) (by simp)
      · exact (List.nodup_cons.mp hnd.2.1).1 (List.mem_map_of_mem _ h2)
    have hmem_back : ∀ x ∈ l1 ++ l2, x ∈ m.elements := fun x hx => hsub.mem hx
    have hmem_fwd : ∀ x ∈ m.elements, x ≠ e → x ∈ l1 ++ l2 := by
      intro x hx hne
      rw [hsplit] at hx
      rcases List.mem_append.mp hx with h1 | h2
      · exact List.mem_append_left _ h1
      · rcases List.mem_cons.mp h2 with hc | h3
        · exact absurd hc hne
        · exact List.mem_append_right _ h3
    refine ⟨?_, ?_, ?_, ?_, ?_, ?_, ?_, ?_⟩
    · rw [hts]; exact hwf.ts_pos
    · rw [hts, htab, length_setBucket]; exact hwf.ts_le
    · rw [hn, hels, hwf.count_eq, hsplit]
      simp only [List.length_append, List.length_cons]
      omega
    · rw [hels]
      exact List.Nodup.sublist (List.Sublist.map _ hsub) hwf.ids_nodup
    · intro x hx
      rw [hnid]
      rw [hels] at hx
      exact hwf.ids_lt x (hsub.mem hx)
    · rw [hels]
      exact List.Nodup.sublist (List.Sublist.map _ hsub) hwf.keys_nodup
    · intro j hj x hx
      rw [htab, length_setBucket] at hj
      rw [htab] at hx
      rw [hels]
      by_cases hjs : j = m.slotOf a
      · subst hjs
        rw [getBucket_set_self _ (hwf.slot_lt a)] at hx
        have hx' : x ∈ getBucket m.table (m.slotOf a) := (List.erase_sublist h _).mem hx
        obtain ⟨e', he', heid', hsl'⟩ := hwf.bucket_sound _ hj x hx'
        have he'ne : e' ≠ e := by
          intro hc
          subst hc
          rw [← heid'] at hx
          rw [heid] at hx
          exact hnotmem_h hx
        exact ⟨e', hmem_fwd e' he' he'ne, heid', (hslot' e'.key).trans hsl'⟩
      · rw [getBucket_set_ne _ (fun hc => hjs hc.symm)] at hx
        obtain ⟨e', he', heid', hsl'⟩ := hwf.bucket_sound _ hj x hx
        have he'ne : e' ≠ e := by
          intro hc
          subst hc
          exact hjs (hsl'.symm.trans hslot_e)
        exact ⟨e', hmem_fwd e' he' he'ne, heid', (hslot' e'.key).trans hsl'⟩
    · intro x hx
      rw [hels] at hx
      have hxm : x ∈ m.elements := hmem_back x hx
      have hxe : x ≠ e := hmem_ne x hx
      have hxeid : x.eid ≠ h := by
        intro hc
        exact hxe (List.inj_on_of_nodup_map hwf.ids_nodup hxm hmem_e (hc.trans heid.symm))
      rw [htab, hslot']
      by_cases hxs : m.slotOf x.key = m.slotOf a
      · rw [hxs, getBucket_set_self _ (hwf.slot_lt a), List.count_erase_of_ne hxeid,
          ← hxs]
        exact hwf.elem_count x hxm
      · rw [getBucket_set_ne _ (fun hc => hxs hc.symm)]
        exact hwf.elem_count x hxm

theorem find_erase_self {m : HashMap K V} (hwf : WF m) (a : K) :
    (m.erase a).find a = none := by
  apply find_eq_none_of_not_mem (wf_erase hwf a)
  rcases hf : m.find a with _ | h
  · rw [erase_of_absent hf]
    exact (find_eq_none_iff hwf a).mp hf
  · obtain ⟨e, l1, l2, _, _, _, hl1k, hl2k, hels, _, _, _, _, _⟩ := erase_decomp hwf hf
    rw [hels]
    intro x hx
    rcases List.mem_append.mp hx with h1 | h2
    · exact hl1k x h1
    · exact hl2k x h2

theorem entries_erase_of_found {m : HashMap K V} (hwf : WF m) {a : K} {h : Nat}
    (hf : m.find a = some h) :
    (m.erase a).entries = m.entries.eraseP (fun q => q.1 == a) := by
  obtain ⟨e, l1, l2, hsplit, hkey, _, hl1k, _, hels, _, _, _, _, _⟩ := erase_decomp hwf hf
  unfold entries
  rw [hels, hsplit]
  simp only [List.map_append, List.map_cons]
  rw [List.eraseP_append_right _ (by
      intro b hb
      obtain ⟨x, hx, hxb⟩ := List.exists_of_mem_map hb
      subst hxb
      simpa using hl1k x hx),
    List.eraseP_cons_of_pos (by simpa using hkey)]

theorem entries_erase_of_absent {m : HashMap K V} (hwf : WF m) {a : K}
    (hf : m.find a = none) :
    (m.erase a).entries = m.entries.eraseP (fun q => q.1 == a) := by
  rw [erase_of_absent hf, List.eraseP_of_forall_not]
  intro b hb
  obtain ⟨x, hx, hxb⟩ := List.exists_of_mem_map hb
  subst hxb
  simpa using (find_eq_none_iff hwf a).mp hf x hx

theorem entries_erase {m : HashMap K V} (hwf : WF m) (a : K) :
    (m.erase a).entries = m.entries.eraseP (fun q => q.1 == a) := by
  rcases hf : m.find a with _ | h
  · exact entries_erase_of_absent hwf hf
  · exact entries_erase_of_found hwf hf

theorem table_size_erase (m : HashMap K V) (a : K) :
    (m.erase a).table_size = m.table_size := by
  rcases hf : m.find a with _ | h
  · rw [erase_of_absent hf]
  · rw [erase_of_found hf]

end HashMap

/-! ### clear -/

namespace HashMap

variable {K V : Type} [DecidableEq K] [Inhabited V]

theorem length_clearLoop {K V : Type} (hasher : K → Nat) (ts : Nat)
    (es : List (Entry K V)) (t : List (List Nat)) :
    (clearLoop hasher ts es t).length = t.length := by
  induction es generalizing t with
  | nil => rfl
  | cons e rest ih =>
    simp only [clearLoop]
    rw [ih, length_setBucket]

theorem getBucket_clearLoop {K V : Type} (hasher : K → Nat) (ts : Nat) (hts : 0 < ts)
    (es : List (Entry K V)) (t : List (List Nat)) (hlen : ts ≤ t.length) (j : Nat) :
    getBucket (clearLoop hasher ts es t) j
      = if es.any (fun e => hasher e.key % ts == j) then [] else getBucket t j := by
  induction es generalizing t with
  | nil => simp [clearLoop]
  | cons e rest ih =>
    simp only [clearLoop]
    rw [ih _ (by rw [length_setBucket]; exact hlen)]
    by_cases hr : rest.any (fun e => hasher e.key % ts == j) = true
    · simp [List.any_cons, hr]
    · simp only [List.any_cons, hr, Bool.or_false]
      rw [if_neg (by simpa using hr)]
      by_cases hj : hasher e.key % ts = j
      · rw [hj, getBucket_set_self _ (lt_of_lt_of_le (hj ▸ Nat.mod_lt _ hts) hlen),
          if_pos (by simpa using hj)]
      · rw [getBucket_set_ne _ hj, if_neg (by simpa using hj)]

theorem table_clear (m : HashMap K V) :
    m.clear.table = clearLoop m.hasher m.table_size m.elements.reverse m.table := rfl

theorem elements_clear (m : HashMap K V) : m.clear.elements = [] := rfl

theorem nElements_clear (m : HashMap K V) : m.clear.nElements = 0 := rfl

theorem table_size_clear (m : HashMap K V) : m.clear.table_size = 1 := rfl

theorem hasher_clear (m : HashMap K V) : m.clear.hasher = m.hasher := rfl

theorem length_table_clear (m : HashMap K V) :
    m.clear.table.length = m.table.length := by
  rw [table_clear, length_clearLoop]

theorem getBucket_clear {m : HashMap K V} (hwf : WF m) (j : Nat) :
    getBucket m.clear.table j = [] := by
  rw [table_clear, getBucket_clearLoop m.hasher m.table_size
    (lt_of_lt_of_le Nat.zero_lt_one hwf.ts_pos) _ _ hwf.ts_le j]
  split
  · rfl
  · rename_i hno
    by_cases hj : j < m.table.length
    · rw [List.eq_nil_iff_forall_not_mem]
      intro x hx
      obtain ⟨e, he, heid, hsl⟩ := hwf.bucket_sound j hj x hx
      apply hno
      rw [List.any_eq_true]
      refine ⟨e, List.mem_reverse.mpr he, ?_⟩
      simpa [slotOf] using hsl
    · exact getBucket_of_length_le (by omega)

theorem wf_clear {m : HashMap K V} (hwf : WF m) : WF m.clear := by
  refine ⟨le_refl 1, ?_, rfl, List.nodup_nil, ?_, List.nodup_nil, ?_, ?_⟩
  · rw [length_table_clear]
    exact le_trans hwf.ts_pos hwf.ts_le
  · intro e he
    cases he
  · intro j hj x hx
    rw [getBucket_clear hwf j] at hx
    cases hx
  · intro e he
    cases he

theorem find_clear (m : HashMap K V) (k : K) : m.clear.find k = none := by
  unfold find
  apply List.find?_eq_none.mpr
  intro x hx
  simp [keyOf, findEntry, elements_clear]

theorem lookupVal_clear (m : HashMap K V) (k : K) : m.clear.lookupVal k = none := by
  rw [HashMap.lookupVal, find_clear]
  rfl

/-! ### returning_insert and indexedAccess -/

theorem returning_insert_fst (m : HashMap K V) (k : K) (v : V) :
    (m.returning_insert k v).1 = (m.pushEntry k v).expand_if_necessary := by
  by_cases hc : (m.pushEntry k v).need_to_expand
  · simp only [returning_insert, expand_if_necessary, if_pos hc]
  · simp only [returning_insert, expand_if_necessary, if_neg hc]

theorem indexedAccess_fst_of_absent {m : HashMap K V} {k : K} (hf : m.find k = none) :
    (m.indexedAccess k).1 = m.insert k default := by
  simp only [indexedAccess]
  rw [hf, insert_of_absent hf]
  exact returning_insert_fst m k default

theorem indexedAccess_of_found {m : HashMap K V} {k : K} {h : Nat}
    (hf : m.find k = some h) :
    (m.indexedAccess k).1 = m ∧ (m.indexedAccess k).2 = (m.valOf h).getD default := by
  simp only [indexedAccess]
  rw [hf]
  exact ⟨rfl, rfl⟩

theorem wf_indexedAccess {m : HashMap K V} (hwf : WF m) (k : K) :
    WF ((m.indexedAccess k).1) := by
  rcases hf : m.find k with _ | h
  · rw [indexedAccess_fst_of_absent hf]
    exact wf_insert hwf k default
  · rw [(indexedAccess_of_found hf).1]
    exact hwf

theorem indexedAccess_snd_of_absent {m : HashMap K V} (hwf : WF m) {k : K}
    (hf : m.find k = none) : (m.indexedAccess k).2 = (default : V) := by
  have hab : ∀ e ∈ m.elements, e.key ≠ k := (find_eq_none_iff hwf k).mp hf
  have hwf1 : WF (m.pushEntry k default) := wf_pushEntry hwf default hab
  have hmem : (Entry.mk m.nextId k (default : V)) ∈ (m.pushEntry k default).elements := by
    rw [elements_pushEntry]
    exact List.mem_append_right _ (List.mem_singleton_self _)
  simp only [indexedAccess]
  rw [hf]
  show ((m.returning_insert k default).2.bind (m.returning_insert k default).1.valOf).getD default
    = default
  by_cases hc : (m.pushEntry k default).need_to_expand
  · simp only [returning_insert, if_pos hc]
    have hwf2 : WF (m.pushEntry k default).expand := wf_expand hwf1
    have hmem2 : (Entry.mk m.nextId k (default : V)) ∈ (m.pushEntry k default).expand.elements := by
      rw [elements_expand]
      exact hmem
    have hfind2 : (m.pushEntry k default).expand.find k = some m.nextId :=
      find_eq_some_of_mem hwf2 hmem2
    rw [hfind2]
    show (((m.pushEntry k default).expand.valOf m.nextId).getD default) = default
    rw [valOf_of_mem hwf2.ids_nodup hmem2]
    rfl
  · simp only [returning_insert, if_neg hc]
    show (((getBucket (m.pushEntry k default).table (m.slotOf k)).getLast?).bind
      (m.pushEntry k default).valOf).getD default = default
    have hbucket : getBucket (m.pushEntry k default).table (m.slotOf k)
        = getBucket m.table (m.slotOf k) ++ [m.nextId] := by
      rw [table_pushEntry, getBucket_set_self _ (hwf.slot_lt k)]
    rw [hbucket, List.getLast?_concat]
    show (((m.pushEntry k default).valOf m.nextId).getD default) = default
    rw [valOf_of_mem hwf1.ids_nodup hmem]
    rfl

theorem entries_indexedAccess_of_absent {m : HashMap K V} (hwf : WF m) {k : K}
    (hf : m.find k = none) :
    ((m.indexedAccess k).1).entries = m.entries ++ [(k, (default : V))] := by
  rw [indexedAccess_fst_of_absent hf]
  unfold entries
  rw [elements_insert_of_absent hf, List.map_append]
  rfl

theorem nElements_insert_of_absent {m : HashMap K V} {k : K} (hf : m.find k = none) (v : V) :
    (m.insert k v).nElements = m.nElements + 1 := by
  rw [insert_of_absent hf, nElements_expand_if_necessary]
  rfl

theorem indexedAccess_snd_of_found {m : HashMap K V} (hwf : WF m) {k : K} {h : Nat}
    (hf : m.find k = some h) :
    some (m.indexedAccess k).2 = m.lookupVal k := by
  obtain ⟨e, he, hkey, heid⟩ := (find_eq_some_iff hwf k h).mp hf
  rw [(indexedAccess_of_found hf).2]
  subst hkey
  rw [lookupVal_of_mem hwf he, ← heid, valOf_of_mem hwf.ids_nodup he]
  rfl

end HashMap

/-! ### The fresh map -/

theorem wf_mk {K V : Type} [DecidableEq K] [Inhabited V] (hasher : K → Nat) :
    WF (mkHashMap hasher : HashMap K V) := by
  refine ⟨le_refl 1, le_refl 1, rfl, List.nodup_nil, ?_, List.nodup_nil, ?_, ?_⟩
  · intro e he
    cases he
  · intro j hj x hx
    have : getBucket (mkHashMap hasher : HashMap K V).table j = [] := getBucket_replicate 1 j
    rw [this] at hx
    cases hx
  · intro e he
    cases he

theorem entries_mk {K V : Type} [DecidableEq K] [Inhabited V] (hasher : K → Nat) :
    (mkHashMap hasher : HashMap K V).entries = [] := rfl

/-! ### The size bounds survive every operation -/

namespace HashMap

variable {K V : Type} [DecidableEq K] [Inhabited V]

theorem safe_pushEntry {m : HashMap K V} (hs : SafeState m) (k : K) (v : V) :
    SafeState (m.pushEntry k v) := by
  refine ⟨hs.1, ?_⟩
  rw [show (m.pushEntry k v).table_size = m.table_size from rfl, table_pushEntry,
    length_setBucket]
  exact hs.2

theorem safe_expand {m : HashMap K V} (hs : SafeState m) : SafeState m.expand := by
  constructor
  · rw [table_size_expand]
    have := hs.1
    simp only [EXPANSION_COEFFICIENT]
    omega
  · rw [table_size_expand, table_expand, length_buildTable]

theorem safe_expand_if_necessary {m : HashMap K V} (hs : SafeState m) :
    SafeState m.expand_if_necessary := by
  unfold expand_if_necessary
  split
  · exact safe_expand hs
  · exact hs

theorem safe_insert {m : HashMap K V} (hs : SafeState m) (k : K) (v : V) :
    SafeState (m.insert k v) := by
  rcases hf : m.find k with _ | h
  · rw [insert_of_absent hf]
    exact safe_expand_if_necessary (safe_pushEntry hs k v)
  · rw [insert_of_found hf]
    exact hs

theorem safe_erase {m : HashMap K V} (hs : SafeState m) (a : K) :
    SafeState (m.erase a) := by
  rcases hf : m.find a with _ | h
  · rw [erase_of_absent hf]
    exact hs
  · rw [erase_of_found hf]
    refine ⟨hs.1, ?_⟩
    rw [show ({ m with
      elements := m.elements.eraseP (fun e => e.eid == h)
      table := setBucket m.table (m.slotOf a)
        ((getBucket m.table (m.slotOf a)).eraseP (fun x => decide (m.keyOf x = some a)))
      nElements := m.nElements - 1 } : HashMap K V).table_size = m.table_size from rfl]
    rw [show ({ m with
      elements := m.elements.eraseP (fun e => e.eid == h)
      table := setBucket m.table (m.slotOf a)
        ((getBucket m.table (m.slotOf a)).eraseP (fun x => decide (m.keyOf x = some a)))
      nElements := m.nElements - 1 } : HashMap K V).table = setBucket m.table (m.slotOf a)
        ((getBucket m.table (m.slotOf a)).eraseP (fun x => decide (m.keyOf x = some a))) from rfl]
    rw [length_setBucket]
    exact hs.2

theorem safe_clear {m : HashMap K V} (hs : SafeState m) : SafeState m.clear := by
  refine ⟨le_refl 1, ?_⟩
  rw [show m.clear.table_size = 1 from rfl, length_table_clear]
  exact le_trans hs.1 hs.2

theorem safe_indexedAccess {m : HashMap K V} (hs : SafeState m) (k : K) :
    SafeState ((m.indexedAccess k).1) := by
  rcases hf : m.find k with _ | h
  · rw [indexedAccess_fst_of_absent hf]
    exact safe_insert hs k default
  · rw [(indexedAccess_of_found hf).1]
    exact hs

theorem safe_insertFold {m : HashMap K V} (hs : SafeState m) (es : List (Entry K V)) :
    SafeState (es.foldl (fun acc e => acc.insert e.key e.val) m) := by
  induction es generalizing m with
  | nil => exact hs
  | cons e rest ih => exact ih (safe_insert hs e.key e.val)

theorem safe_assign {m other : HashMap K V} (hs : SafeState m) :
    SafeState (m.assign other) := by
  have h2 := safe_insertFold (safe_clear hs) other.elements
  exact ⟨h2.1, h2.2⟩

end HashMap

theorem reachable_safe {K V : Type} [DecidableEq K] [Inhabited V] {m : HashMap K V}
    (hr : Reachable m) : SafeState m := by
  induction hr with
  | base hasher => exact ⟨le_refl 1, le_refl 1⟩
  | ins k v _ ih => exact HashMap.safe_insert ih k v
  | del k _ ih => exact HashMap.safe_erase ih k
  | idx k _ ih => exact HashMap.safe_indexedAccess ih k
  | clr _ ih => exact HashMap.safe_clear ih
  | asg _ _ ih1 _ => exact HashMap.safe_assign ih1

/-! ### One step of the reference semantics -/

namespace HashMap

variable {K V : Type} [DecidableEq K] [Inhabited V]

theorem any_key_iff {m : HashMap K V} (hwf : WF m) (k : K) :
    m.entries.any (fun q => q.1 == k) = (m.find k).isSome := by
  rcases hf : m.find k with _ | h
  · simp only [Option.isSome_none]
    rw [List.any_eq_false]
    intro q hq
    obtain ⟨e, he, hqe⟩ := List.exists_of_mem_map hq
    subst hqe
    simpa using (find_eq_none_iff hwf k).mp hf e he
  · simp only [Option.isSome_some]
    rw [List.any_eq_true]
    obtain ⟨e, he, hkey, _⟩ := (find_eq_some_iff hwf k h).mp hf
    exact ⟨(e.key, e.val), List.mem_map_of_mem _ he, by simpa using hkey⟩

theorem applyOp_entries_spec {m : HashMap K V} (hwf : WF m) (op : Op K V) :
    (m.applyOp op).entries = specApplyOp m.entries op ∧ WF (m.applyOp op) := by
  cases op with
  | ins k v =>
    refine ⟨?_, wf_insert hwf k v⟩
    rw [show m.applyOp (Op.ins k v) = m.insert k v from rfl, entries_insert hwf k v]
    rfl
  | del k =>
    exact ⟨entries_erase hwf k, wf_erase hwf k⟩
  | idx k =>
    refine ⟨?_, wf_indexedAccess hwf k⟩
    rcases hf : m.find k with _ | h
    · rw [show m.applyOp (Op.idx k) = (m.indexedAccess k).1 from rfl,
        entries_indexedAccess_of_absent hwf hf]
      show _ = if m.entries.any (fun q => q.1 == k) then m.entries
        else m.entries ++ [(k, default)]
      rw [any_key_iff hwf, hf]
      rfl
    · rw [show m.applyOp (Op.idx k) = (m.indexedAccess k).1 from rfl,
        (indexedAccess_of_found hf).1]
      show m.entries = if m.entries.any (fun q => q.1 == k) then m.entries
        else m.entries ++ [(k, default)]
      rw [any_key_iff hwf, hf]
      rfl

end HashMap

theorem foldl_applyOp_spec {K V : Type} [DecidableEq K] [Inhabited V]
    (ops : List (Op K V)) (m : HashMap K V) (hwf : WF m) :
    (ops.foldl HashMap.applyOp m).entries = ops.foldl specApplyOp m.entries ∧
      WF (ops.foldl HashMap.applyOp m) := by
  induction ops generalizing m with
  | nil => exact ⟨rfl, hwf⟩
  | cons op rest ih =>
    obtain ⟨h1, h2⟩ := HashMap.applyOp_entries_spec hwf op
    obtain ⟨h3, h4⟩ := ih _ h2
    exact ⟨by rw [List.foldl_cons, List.foldl_cons, h3, h1], h4⟩

/-! ### Folding insertions -/

namespace HashMap

variable {K V : Type} [DecidableEq K] [Inhabited V]

theorem wf_insertAll {m : HashMap K V} (hwf : WF m) (ps : List (K × V)) :
    WF (insertAll m ps) := by
  induction ps generalizing m with
  | nil => exact hwf
  | cons p rest ih => exact ih (wf_insert hwf p.1 p.2)

theorem mem_insertAll {m : HashMap K V} {e : Entry K V}
    (he : e ∈ m.elements) (ps : List (K × V)) : e ∈ (insertAll m ps).elements := by
  induction ps generalizing m with
  | nil => exact he
  | cons p rest ih => exact ih (mem_elements_insert he p.1 p.2)

theorem entries_insertAll_spec {m : HashMap K V} (hwf : WF m) (ps : List (K × V)) :
    (insertAll m ps).entries
      = ps.foldl (fun l p => if l.any (fun q => q.1 == p.1) then l else l ++ [p]) m.entries := by
  induction ps generalizing m with
  | nil => rfl
  | cons p rest ih =>
    show (insertAll (m.insert p.1 p.2) rest).entries = _
    rw [ih (wf_insert hwf p.1 p.2), entries_insert hwf p.1 p.2]
    rfl

end HashMap

/-! ### The claims -/

/-- C1: for every key `k` and value `v` inserted into the map (insertion
succeeding because `k` was absent), with no intervening erase of `k`,
`find(k)` returns an iterator to the entry whose value is `v` and `at(k)`
returns `v`, and this still holds after any number of later insertions —
including every growth/rehash those insertions trigger. -/
theorem c1_round_trip {K V : Type} [DecidableEq K] [Inhabited V]
    (m : HashMap K V) (hwf : WF m) (k : K) (v : V) (habs : m.find k = none)
    (ps : List (K × V)) :
    (insertAll (m.insert k v) ps).lookupVal k = some v ∧
    (∃ h, (insertAll (m.insert k v) ps).find k = some h ∧
      (insertAll (m.insert k v) ps).valOf h = some v) ∧
    (insertAll (m.insert k v) ps).atKey k = AtResult.found v := by
  have hwf1 : WF (m.insert k v) := HashMap.wf_insert hwf k v
  have hmem1 : (Entry.mk m.nextId k v) ∈ (m.insert k v).elements := by
    rw [HashMap.elements_insert_of_absent habs]
    exact List.mem_append_right _ (List.mem_singleton_self _)
  have hwf2 : WF (insertAll (m.insert k v) ps) := HashMap.wf_insertAll hwf1 ps
  have hmem2 : (Entry.mk m.nextId k v) ∈ (insertAll (m.insert k v) ps).elements :=
    HashMap.mem_insertAll hmem1 ps
  exact ⟨HashMap.lookupVal_of_mem hwf2 hmem2,
    ⟨m.nextId, HashMap.find_eq_some_of_mem hwf2 hmem2,
      HashMap.valOf_of_mem hwf2.ids_nodup hmem2⟩,
    HashMap.atKey_of_mem hwf2 hmem2⟩

/-- Witness for C1 at a concrete input: insert (0, 5) into a fresh map, then
insert (1, 7) and (2, 8) (which force two growth events), and look key 0
up. -/
theorem c1_round_trip_witness :
    (insertAll ((mkHashMap natId : HashMap Nat Nat).insert 0 5) [(1, 7), (2, 8)]).lookupVal 0
        = some 5 ∧
    (∃ h, (insertAll ((mkHashMap natId : HashMap Nat Nat).insert 0 5) [(1, 7), (2, 8)]).find 0
          = some h ∧
      (insertAll ((mkHashMap natId : HashMap Nat Nat).insert 0 5) [(1, 7), (2, 8)]).valOf h
          = some 5) ∧
    (insertAll ((mkHashMap natId : HashMap Nat Nat).insert 0 5) [(1, 7), (2, 8)]).atKey 0
        = AtResult.found 5 :=
  c1_round_trip (mkHashMap natId) (by decide) 0 5 (by decide) [(1, 7), (2, 8)]

/-- C2: a fresh map fed any sequence of inserts holds at most one entry per
key; the stored value for each key comes from the first insert of that key
(the run refines the first-wins reference fold), and an insert whose key is
already present returns the map unchanged. -/
theorem c2_first_insert_wins {K V : Type} [DecidableEq K] [Inhabited V]
    (hasher : K → Nat) (ps : List (K × V)) :
    (hashMapOfList hasher ps).entries = specFirstWins ps ∧
    ((hashMapOfList hasher ps).entries.map Prod.fst).Nodup ∧
    (∀ (k : K) (v : V) (h : Nat), (hashMapOfList hasher ps).find k = some h →
      (hashMapOfList hasher ps).insert k v = hashMapOfList hasher ps) := by
  have hwf : WF (hashMapOfList hasher ps) := HashMap.wf_insertAll (wf_mk hasher) ps
  refine ⟨?_, ?_, ?_⟩
  · rw [show hashMapOfList hasher ps = insertAll (mkHashMap hasher) ps from rfl,
      HashMap.entries_insertAll_spec (wf_mk hasher) ps, entries_mk]
    rfl
  · have hmap : ∀ (l : List (Entry K V)),
        (l.map (fun e => (e.key, e.val))).map Prod.fst = l.map Entry.key := by
      intro l
      induction l with
      | nil => rfl
      | cons e r ih => simp [ih]
    rw [show (hashMapOfList hasher ps).entries
        = (hashMapOfList hasher ps).elements.map (fun e => (e.key, e.val)) from rfl, hmap]
    exact hwf.keys_nodup
  · intro k v h hf
    exact HashMap.insert_of_found hf v

/-- Witness for C2 at a concrete input: the sequence (1,10), (2,20), (1,30)
keeps only the first value for key 1, and a repeated insert is a no-op. -/
theorem c2_first_insert_wins_witness :
    (hashMapOfList natId [(1, 10), (2, 20), (1, 30)] : HashMap Nat Nat).entries
        = specFirstWins [(1, 10), (2, 20), (1, 30)] ∧
    (hashMapOfList natId [(1, 10), (2, 20), (1, 30)] : HashMap Nat Nat).insert 1 99
        = hashMapOfList natId [(1, 10), (2, 20), (1, 30)] :=
  ⟨(c2_first_insert_wins natId [(1, 10), (2, 20), (1, 30)]).1,
   (c2_first_insert_wins natId [(1, 10), (2, 20), (1, 30)]).2.2 1 99 0 (by decide)⟩

/-- C3: for every sequence of insert, erase and indexed-access operations
from a fresh map, iterating from `begin()` to `end()` yields exactly the
currently-present entries in first-insertion order — the run refines the
insertion-ordered association-list reference semantics, which is oblivious
to bucket structure and hence to every resize. -/
theorem c3_iteration_order {K V : Type} [DecidableEq K] [Inhabited V]
    (hasher : K → Nat) (ops : List (Op K V)) :
    (runOps hasher ops).entries = specRunOps ops := by
  have hstep := foldl_applyOp_spec ops (mkHashMap hasher) (wf_mk hasher)
  rw [runOps, specRunOps, hstep.1, entries_mk]

/-- C4: the bucket invariant fails after copy-assignment between maps whose
hash functors differ.  `operator=` inserts the source's elements under the
target's *old* hash functor and only afterwards copies `hasher_`, so in the
reachable state `asgBroken` the entry with key 1 is present but sits in the
slot of the old functor: under the currently configured hash function its
handle is not in slot hash(1) mod capacity, and `find(1)` returns the end
sentinel even though key 1 is present. -/
theorem c4_assign_breaks_invariant :
    Reachable asgBroken ∧
    (∃ e ∈ asgBroken.elements, e.key = 1) ∧
    asgBroken.find 1 = none ∧
    (∃ e ∈ asgBroken.elements,
      e.eid ∉ getBucket asgBroken.table (asgBroken.slotOf e.key)) := by
  refine ⟨?_, by decide, by decide, by decide⟩
  have hother : hashMapOfList natId [(0, 10), (1, 11)]
      = ((mkHashMap natId : HashMap Nat Nat).insert 0 10).insert 1 11 := rfl
  unfold asgBroken
  rw [hother]
  exact Reachable.asg (Reachable.base hashZero)
    (Reachable.ins 1 11 (Reachable.ins 0 10 (Reachable.base natId)))

/-- C5 counterexample: insert one element into a fresh map.  Afterwards
size == capacity (1 == 1, load factor exactly 1), yet the capacity does not
grow — the code expands only when size strictly exceeds capacity, not at
the claimed equality threshold. -/
theorem c5_counterexample :
    ((mkHashMap natId : HashMap Nat Nat).insert 0 0).nElements = 1 ∧
    ((mkHashMap natId : HashMap Nat Nat).insert 0 0).table_size = 1 := by
  decide

/-- C5 amended: the resize policy is amortized doubling triggered strictly
by the load factor exceeding 1: after an insertion of an absent key the
capacity is doubled exactly when the new size strictly exceeds the old
capacity (and is unchanged otherwise), the growth event rebuilding the
whole bucket index by rehashing every element under the new capacity;
inserts of present keys and erases never change the capacity. -/
theorem c5_amended_resize_policy {K V : Type} [DecidableEq K] [Inhabited V]
    (m : HashMap K V) (k : K) (v : V) (habs : m.find k = none) :
    (m.nElements + 1 > m.table_size →
      (m.insert k v).table_size = m.table_size * EXPANSION_COEFFICIENT ∧
      (m.insert k v).table
        = HashMap.buildTable (m.elements ++ [Entry.mk m.nextId k v]) m.hasher
            (m.table_size * EXPANSION_COEFFICIENT)) ∧
    (m.nElements + 1 ≤ m.table_size → (m.insert k v).table_size = m.table_size) ∧
    (∀ (m' : HashMap K V) (k' : K) (v' : V) (h : Nat),
      m'.find k' = some h → m'.insert k' v' = m') ∧
    (∀ a : K, (m.erase a).table_size = m.table_size) := by
  have hpush_n : (m.pushEntry k v).nElements = m.nElements + 1 := rfl
  have hpush_ts : (m.pushEntry k v).table_size = m.table_size := rfl
  refine ⟨?_, ?_, ?_, ?_⟩
  · intro hgrow
    have hneed : (m.pushEntry k v).need_to_expand = true := by
      unfold HashMap.need_to_expand
      rw [hpush_n, hpush_ts]
      exact decide_eq_true hgrow
    rw [HashMap.insert_of_absent habs]
    unfold HashMap.expand_if_necessary
    rw [if_pos hneed]
    constructor
    · rw [HashMap.table_size_expand, hpush_ts]
    · rw [HashMap.table_expand, hpush_ts]
      rfl
  · intro hstay
    have hneed : (m.pushEntry k v).need_to_expand = false := by
      unfold HashMap.need_to_expand
      rw [hpush_n, hpush_ts]
      exact decide_eq_false (by omega)
    rw [HashMap.insert_of_absent habs]
    unfold HashMap.expand_if_necessary
    rw [hneed]
    exact hpush_ts ▸ rfl
  · intro m' k' v' h hf
    exact HashMap.insert_of_found hf v'
  · exact HashMap.table_size_erase m

/-- Witness for C5 amended: the second insertion into a fresh map makes the
size (2) exceed the capacity (1), and the capacity doubles; erase of an
absent key leaves the capacity alone. -/
theorem c5_amended_witness :
    ((mkHashMap natId : HashMap Nat Nat).insert 0 0).nElements + 1
        > ((mkHashMap natId : HashMap Nat Nat).insert 0 0).table_size ∧
    (((mkHashMap natId : HashMap Nat Nat).insert 0 0).insert 1 1).table_size
        = ((mkHashMap natId : HashMap Nat Nat).insert 0 0).table_size
            * EXPANSION_COEFFICIENT ∧
    ((((mkHashMap natId : HashMap Nat Nat).insert 0 0).erase 5).table_size
        = ((mkHashMap natId : HashMap Nat Nat).insert 0 0).table_size) := by
  refine ⟨by decide, ?_, ?_⟩
  · exact ((c5_amended_resize_policy ((mkHashMap natId : HashMap Nat Nat).insert 0 0) 1 1
      (by decide)).1 (by decide)).1
  · exact (c5_amended_resize_policy ((mkHashMap natId : HashMap Nat Nat).insert 0 0) 1 1
      (by decide)).2.2.2 5

/-- C6: after `erase(k)` the key is no longer findable; erasing an absent
key is an exact no-op (not an error); erasing a present key removes exactly
one entry from the element list and exactly one handle from its bucket
(other buckets untouched), the size dropping by exactly one, and iteration
afterwards equals the previous sequence with the key's pair removed. -/
theorem c6_erase_complete {K V : Type} [DecidableEq K] [Inhabited V]
    (m : HashMap K V) (hwf : WF m) (k : K) :
    ((m.erase k).find k = none) ∧
    (m.find k = none → m.erase k = m) ∧
    (∀ h, m.find k = some h →
      (m.erase k).nElements + 1 = m.nElements ∧
      (m.erase k).elements.length + 1 = m.elements.length ∧
      (getBucket (m.erase k).table (m.slotOf k)).length + 1
        = (getBucket m.table (m.slotOf k)).length ∧
      (∀ j, j ≠ m.slotOf k → getBucket (m.erase k).table j = getBucket m.table j) ∧
      (m.erase k).entries = m.entries.eraseP (fun q => q.1 == k)) := by
  refine ⟨HashMap.find_erase_self hwf k, fun hf => HashMap.erase_of_absent hf, ?_⟩
  intro h hf
  obtain ⟨e, l1, l2, hsplit, hkey, heid, _, _, hels, htab, hn, _, _, _⟩ :=
    HashMap.erase_decomp hwf hf
  have hmem_e : e ∈ m.elements := by
    rw [hsplit]
    exact List.mem_append_right _ (List.mem_cons_self _ _)
  have hlen : m.elements.length = l1.length + 1 + l2.length := by
    rw [hsplit]
    simp only [List.length_append, List.length_cons]
    omega
  have hcount_h : (getBucket m.table (m.slotOf k)).count h = 1 := by
    have := hwf.elem_count e hmem_e
    rw [show m.slotOf e.key = m.slotOf k from by rw [hkey], heid] at this
    exact this
  have hmem_h : h ∈ getBucket m.table (m.slotOf k) :=
    List.count_pos_iff.mp (by omega)
  refine ⟨?_, ?_, ?_, ?_, HashMap.entries_erase_of_found hwf hf⟩
  · rw [hn, hwf.count_eq, hlen]
    omega
  · rw [hels, hlen]
    simp only [List.length_append]
    omega
  · rw [htab, getBucket_set_self _ (hwf.slot_lt k), List.length_erase_of_mem hmem_h]
    have : 0 < (getBucket m.table (m.slotOf k)).length := List.length_pos_of_mem hmem_h
    omega
  · intro j hj
    rw [htab, getBucket_set_ne _ (fun hc => hj hc.symm)]

/-- Witness for C6 at a concrete input: erasing key 2 from a two-element
map removes it, and the size drops from 2 to 1. -/
theorem c6_erase_complete_witness :
    ((hashMapOfList natId [(1, 10), (2, 20)] : HashMap Nat Nat).erase 2).find 2 = none ∧
    ((hashMapOfList natId [(1, 10), (2, 20)] : HashMap Nat Nat).erase 2).nElements + 1
        = (hashMapOfList natId [(1, 10), (2, 20)] : HashMap Nat Nat).nElements ∧
    ((hashMapOfList natId [(1, 10), (2, 20)] : HashMap Nat Nat).erase 5)
        = hashMapOfList natId [(1, 10), (2, 20)] :=
  ⟨(c6_erase_complete (hashMapOfList natId [(1, 10), (2, 20)]) (by decide) 2).1,
   ((c6_erase_complete (hashMapOfList natId [(1, 10), (2, 20)]) (by decide) 2).2.2 1
      (by decide)).1,
   (c6_erase_complete (hashMapOfList natId [(1, 10), (2, 20)]) (by decide) 5).2.1 (by decide)⟩

/-- C7: `operator[]` on an absent key inserts a default-constructed value,
appends the pair to the iteration sequence, grows the size by one and
returns the default value; an immediately following `operator[]` on the now
present key changes nothing and returns the stored value.  On a present key
it returns the stored value and leaves the map untouched. -/
theorem c7_auto_vivification {K V : Type} [DecidableEq K] [Inhabited V]
    (m : HashMap K V) (hwf : WF m) (k : K) :
    (m.find k = none →
      (m.indexedAccess k).2 = (default : V) ∧
      ((m.indexedAccess k).1).entries = m.entries ++ [(k, (default : V))] ∧
      ((m.indexedAccess k).1).nElements = m.nElements + 1 ∧
      ((m.indexedAccess k).1).lookupVal k = some (default : V) ∧
      (((m.indexedAccess k).1).indexedAccess k).1 = (m.indexedAccess k).1 ∧
      some (((m.indexedAccess k).1).indexedAccess k).2
        = ((m.indexedAccess k).1).lookupVal k) ∧
    (∀ h, m.find k = some h →
      (m.indexedAccess k).1 = m ∧ some (m.indexedAccess k).2 = m.lookupVal k) := by
  constructor
  · intro hf
    have hwf1 : WF ((m.indexedAccess k).1) := HashMap.wf_indexedAccess hwf k
    have hmem1 : (Entry.mk m.nextId k (default : V)) ∈ ((m.indexedAccess k).1).elements := by
      rw [HashMap.indexedAccess_fst_of_absent hf, HashMap.elements_insert_of_absent hf]
      exact List.mem_append_right _ (List.mem_singleton_self _)
    have hfind1 : ((m.indexedAccess k).1).find k = some m.nextId :=
      HashMap.find_eq_some_of_mem hwf1 hmem1
    refine ⟨HashMap.indexedAccess_snd_of_absent hwf hf,
      HashMap.entries_indexedAccess_of_absent hwf hf, ?_, ?_, ?_, ?_⟩
    · rw [HashMap.indexedAccess_fst_of_absent hf, HashMap.nElements_insert_of_absent hf]
    · exact HashMap.lookupVal_of_mem hwf1 hmem1
    · exact (HashMap.indexedAccess_of_found hfind1).1
    · exact HashMap.indexedAccess_snd_of_found hwf1 hfind1
  · intro h hf
    exact ⟨(HashMap.indexedAccess_of_found hf).1, HashMap.indexedAccess_snd_of_found hwf hf⟩

/-- Witness for C7 at a concrete input: indexed access on the absent key 7
of a fresh map returns the default value 0 and makes the size 1; a second
access returns the same value and leaves the map as it was. -/
theorem c7_auto_vivification_witness :
    ((mkHashMap natId : HashMap Nat Nat).indexedAccess 7).2 = 0 ∧
    ((mkHashMap natId : HashMap Nat Nat).indexedAccess 7).1.nElements = 1 ∧
    ((((mkHashMap natId : HashMap Nat Nat).indexedAccess 7).1).indexedAccess 7).1
      = ((mkHashMap natId : HashMap Nat Nat).indexedAccess 7).1 := by
  have h := (c7_auto_vivification (mkHashMap natId : HashMap Nat Nat) (by decide) 7).1
    (by decide)
  refine ⟨h.1, ?_, h.2.2.2.2.1⟩
  rw [h.2.2.1]
  rfl

/-- C8: `at(k)` reports `KeyNotFound` exactly when `k` is absent and
otherwise returns the stored value (its type is a pure read on the const
receiver, so it never mutates); `find`, `erase` and `insert` have no error
channel at all and treat absence (for erase) or key duplication (for
insert) as exact no-ops. -/
theorem c8_error_handling {K V : Type} [DecidableEq K] [Inhabited V]
    (m : HashMap K V) (hwf : WF m) (k : K) :
    (m.atKey k = AtResult.keyNotFound ↔ m.find k = none) ∧
    (m.atKey k = AtResult.keyNotFound ↔ ∀ e ∈ m.elements, e.key ≠ k) ∧
    (∀ e ∈ m.elements, e.key = k → m.atKey k = AtResult.found e.val) ∧
    (m.find k = none → m.erase k = m) ∧
    (∀ (h : Nat) (v : V), m.find k = some h → m.insert k v = m) := by
  have hiff : m.atKey k = AtResult.keyNotFound ↔ m.find k = none := by
    unfold HashMap.atKey
    rcases hf : m.find k with _ | h
    · simp
    · simp
  refine ⟨hiff, hiff.trans (HashMap.find_eq_none_iff hwf k), ?_, ?_, ?_⟩
  · intro e he hk
    rw [← hk]
    exact HashMap.atKey_of_mem hwf he
  · exact fun hf => HashMap.erase_of_absent hf
  · exact fun h v hf => HashMap.insert_of_found hf v

/-- Witness for C8 at a concrete input: on the one-element map {1 ↦ 10},
`at(2)` is `KeyNotFound`, `at(1)` returns 10, `erase(2)` and a repeated
`insert(1, 99)` are no-ops. -/
theorem c8_error_handling_witness :
    ((hashMapOfList natId [(1, 10)] : HashMap Nat Nat).atKey 2 = AtResult.keyNotFound) ∧
    ((hashMapOfList natId [(1, 10)] : HashMap Nat Nat).atKey 1 = AtResult.found 10) ∧
    ((hashMapOfList natId [(1, 10)] : HashMap Nat Nat).erase 2
        = hashMapOfList natId [(1, 10)]) ∧
    ((hashMapOfList natId [(1, 10)] : HashMap Nat Nat).insert 1 99
        = hashMapOfList natId [(1, 10)]) :=
  ⟨(c8_error_handling (hashMapOfList natId [(1, 10)]) (by decide) 2).1.mpr (by decide),
   (c8_error_handling (hashMapOfList natId [(1, 10)]) (by decide) 1).2.2.1
      (Entry.mk 0 1 10) (by decide) (by decide),
   (c8_error_handling (hashMapOfList natId [(1, 10)]) (by decide) 2).2.2.2.1 (by decide),
   (c8_error_handling (hashMapOfList natId [(1, 10)]) (by decide) 1).2.2.2.2 0 99 (by decide)⟩

/-- C9: `clear()` empties the map: no entries remain, the size is 0,
`empty()` holds, the recorded capacity is reset to 1 — the same capacity a
default-constructed map starts with — and no key whatsoever is findable
afterwards (`find` yields the end sentinel, `at` throws). -/
theorem c9_clear {K V : Type} [DecidableEq K] [Inhabited V] (m : HashMap K V) :
    m.clear.entries = [] ∧
    m.clear.size = 0 ∧
    m.clear.isEmpty = true ∧
    m.clear.table_size = 1 ∧
    (mkHashMap m.hasher : HashMap K V).table_size = 1 ∧
    (∀ k, m.clear.find k = none) ∧
    (∀ k, m.clear.lookupVal k = none) ∧
    (∀ k, m.clear.atKey k = AtResult.keyNotFound) := by
  refine ⟨rfl, rfl, rfl, rfl, rfl, HashMap.find_clear m, HashMap.lookupVal_clear m, ?_⟩
  intro k
  unfold HashMap.atKey
  rw [HashMap.find_clear]

/-- C10 counterexample: the claim says that at every reachable state the
slot-0 bucket used after `clear()` was emptied by `clear()`.  In the
reachable state `clearStale` (a `clear()` right after a hash-functor-changing
copy-assignment) the loop in `clear()` computes slots with the newly adopted
hash functor, misses the buckets that actually hold the handles, and leaves
two stale handles in slot 0 while the recorded capacity is 1. -/
theorem c10_counterexample :
    Reachable clearStale ∧
    getBucket clearStale.table 0 ≠ [] ∧
    clearStale.table_size = 1 := by
  refine ⟨?_, by decide, by decide⟩
  have hother : hashMapOfList hashOne [(0, 10), (1, 11)]
      = ((mkHashMap hashOne : HashMap Nat Nat).insert 0 10).insert 1 11 := rfl
  unfold clearStale
  rw [hother]
  exact Reachable.clr (Reachable.asg (Reachable.base hashZero)
    (Reachable.ins 1 11 (Reachable.ins 0 10 (Reachable.base hashOne))))

/-- C10 amended: at every reachable state `1 ≤ table_size_ ≤ table_.size()`
holds, so `hash(key) % table_size_` never divides by zero and every bucket
access stays in bounds; `clear()` keeps the bucket vector's length while
resetting the recorded capacity to 1 (so subsequent operations use only
slot 0); and slot 0 — indeed every bucket — is guaranteed empty after
`clear()` whenever the pre-clear state satisfies the full bucket invariant
`WF` (which a hash-functor-changing copy-assignment can break, as the
counterexample shows). -/
theorem c10_amended_safety {K V : Type} [DecidableEq K] [Inhabited V]
    (m : HashMap K V) (hr : Reachable m) :
    (1 ≤ m.table_size ∧ m.table_size ≤ m.table.length) ∧
    (m.clear.table.length = m.table.length ∧ m.clear.table_size = 1) ∧
    (WF m → ∀ j, getBucket m.clear.table j = []) :=
  ⟨reachable_safe hr, ⟨HashMap.length_table_clear m, rfl⟩,
   fun hwf j => HashMap.getBucket_clear hwf j⟩

/-- Witness for C10 amended at a concrete input: the fresh map is reachable
and well-formed, its capacity bounds hold, and clearing it leaves slot 0
empty. -/
theorem c10_amended_safety_witness :
    (1 ≤ (mkHashMap natId : HashMap Nat Nat).table_size ∧
      (mkHashMap natId : HashMap Nat Nat).table_size
        ≤ (mkHashMap natId : HashMap Nat Nat).table.length) ∧
    getBucket (mkHashMap natId : HashMap Nat Nat).clear.table 0 = [] :=
  ⟨(c10_amended_safety (mkHashMap natId) (Reachable.base natId)).1,
   (c10_amended_safety (mkHashMap natId) (Reachable.base natId)).2.2 (by decide) 0⟩
